import Mathlib

/-!
Verification of the link-extractor engine (src/parser.rs, src/main.rs).

The engine consumes the document tree produced by the external comrak
markdown library (`comrak::parse_document`); the tree itself is external
input (spec §3), so it is embedded here as an abstract rose tree whose
tagged values keep exactly the distinctions the engine's code inspects:
`NodeValue::Text` (a literal text run), `NodeValue::Link` (carrying the
target url; the engine reads only `link.url`), `NodeValue::Code` (an
inline code span, which in the comrak tree is a leaf carrying its literal
inside the node value itself rather than in a child text node), and every
other structural variant (Document, Paragraph, Emph, Strong, Item, List,
Heading, ...), collapsed to `container k` with a kind index keeping
distinct kinds distinct.  `parse_document` itself is out of scope
(spec §1) and enters the development as an abstract `String → Node`
parameter.
-/

namespace LinkExtractor

/-- Tagged node value, after `comrak::nodes::NodeValue`, restricted to the
distinctions the extractor's code makes. -/
inductive NodeValue : Type
  | text (literal : String)
  | link (url : String)
  | code (literal : String)
  | container (kind : Nat)
deriving DecidableEq

/-- A node of the document tree (`comrak::nodes::AstNode`): a tagged value
and an ordered list of children.  The engine only reads the tree. -/
inductive Node : Type
  | mk (value : NodeValue) (children : List Node)

/-- The tagged value of a node. -/
def Node.value : Node → NodeValue
  | .mk v _ => v

/-- The ordered children of a node. -/
def Node.children : Node → List Node
  | .mk _ cs => cs

mutual
/-- `comrak`'s `AstNode::descendants()`: the node itself followed by the
descendants of its children, left to right — pre-order document order. -/
def descendants : Node → List Node
  | .mk v cs => .mk v cs :: descendantsList cs

/-- Descendants of a forest, left to right. -/
def descendantsList : List Node → List Node
  | [] => []
  | n :: ns => descendants n ++ descendantsList ns
end

/-- A hyperlink record extracted from a markdown document
(`struct Link` in src/parser.rs). -/
structure Link where
  description : String
  url : String
  source_file : String
deriving DecidableEq

/-- Concatenation of a list of strings in order, with no separators —
Rust's `collect::<String>()` over an iterator of strings. -/
def joinAll : List String → String
  | [] => ""
  | s :: ss => s ++ joinAll ss

/-- The text contributed by one node: the content of a `Text` node,
nothing otherwise (the `filter_map` body inside `extract_text`). -/
def textOf : Node → Option String
  | .mk (.text s) _ => some s
  | _ => none

/-- src/parser.rs `extract_text`: walk `root.descendants()`, keep the
content of every `NodeValue::Text` node, and concatenate in order. -/
def extract_text (root : Node) : String :=
  joinAll ((descendants root).filterMap textOf)

/-- src/parser.rs `extract_link_from_node`: if the node's value is
`NodeValue::Link`, build a `Link` from the cloned url, the accumulated
text of the node's subtree, and the given file path; otherwise `None`. -/
def extract_link_from_node (node : Node) (file_path : String) : Option Link :=
  match node.value with
  | .link url => some { description := extract_text node, url := url, source_file := file_path }
  | _ => none

/-- src/parser.rs `extract_links`, after the parse step: filter-map
`extract_link_from_node` over the descendants of the tree root. -/
def extract_links_tree (root : Node) (file_path : String) : List Link :=
  (descendants root).filterMap (fun n => extract_link_from_node n file_path)

/-- src/parser.rs `extract_links`: parse the markdown input with the
external comrak parser (`parse_document`, abstracted as the parameter
`parse`) and extract the links of the resulting tree. -/
def extract_links (parse : String → Node) (markdown_input : String) (file_path : String) : List Link :=
  extract_links_tree (parse markdown_input) file_path

/-- Whether a node's tagged value represents a hyperlink. -/
def isLink (n : Node) : Bool :=
  match n.value with
  | .link _ => true
  | _ => false

mutual
/-- Number of link-tagged nodes in a tree. -/
def countLinks : Node → Nat
  | .mk v cs => (match v with | .link _ => 1 | _ => 0) + countLinksList cs

/-- Number of link-tagged nodes in a forest. -/
def countLinksList : List Node → Nat
  | [] => 0
  | n :: ns => countLinks n + countLinksList ns
end

/-- The url stored in a link node's value; `""` on non-link nodes. -/
def nodeUrl : Node → String
  | .mk (.link u) _ => u
  | _ => ""

mutual
/-- Pre-order traversal as the spec words it (§4.2 step 2, glossary):
visit a node, then recurse into its children in order, left to right. -/
def preorder : Node → List Node
  | .mk v cs => .mk v cs :: preorderForest cs

/-- Pre-order traversal of a forest, left to right. -/
def preorderForest : List Node → List Node
  | [] => []
  | c :: cs => preorder c ++ preorderForest cs
end

mutual
/-- The text accumulation the spec describes (§4.1), stated structurally:
a text leaf contributes its literal, every other node contributes nothing
of its own, and children's contributions are concatenated in order with no
separators. -/
def concatTexts : Node → String
  | .mk (.text s) cs => s ++ concatTextsList cs
  | .mk (.link _) cs => concatTextsList cs
  | .mk (.code _) cs => concatTextsList cs
  | .mk (.container _) cs => concatTextsList cs

/-- Concatenated text of a forest, in order. -/
def concatTextsList : List Node → String
  | [] => ""
  | n :: ns => concatTexts n ++ concatTextsList ns
end

mutual
/-- Mutual induction over the tree: to establish `P` at every node and `Q`
at every forest, it suffices to handle the three ways they are built. -/
theorem node_ind {P : Node → Prop} {Q : List Node → Prop}
    (hmk : ∀ v cs, Q cs → P (.mk v cs))
    (hnil : Q [])
    (hcons : ∀ n ns, P n → Q ns → Q (n :: ns)) :
    ∀ n : Node, P n
  | .mk v cs => hmk v cs (forest_ind hmk hnil hcons cs)

/-- Forest half of the mutual induction. -/
theorem forest_ind {P : Node → Prop} {Q : List Node → Prop}
    (hmk : ∀ v cs, Q cs → P (.mk v cs))
    (hnil : Q [])
    (hcons : ∀ n ns, P n → Q ns → Q (n :: ns)) :
    ∀ l : List Node, Q l
  | [] => hnil
  | n :: ns => hcons n ns (node_ind hmk hnil hcons n) (forest_ind hmk hnil hcons ns)
end

/-- `joinAll` splits over list append. -/
theorem joinAll_append (a b : List String) :
    joinAll (a ++ b) = joinAll a ++ joinAll b := by
  induction a with
  | nil => simp [joinAll]
  | cons s ss ih => simp [joinAll, ih, String.append_assoc]

/-- Counting link nodes along `descendants` agrees with the structural
count, on trees and forests alike. -/
theorem filter_isLink_length :
    (∀ n : Node, ((descendants n).filter isLink).length = countLinks n) ∧
    (∀ l : List Node, ((descendantsList l).filter isLink).length = countLinksList l) := by
  constructor
  · refine node_ind (Q := fun l => ((descendantsList l).filter isLink).length = countLinksList l)
      ?_ ?_ ?_
    · intro v cs ih
      cases v <;> simp [descendants, countLinks, isLink, Node.value, ih, Nat.add_comm]
    · simp [descendantsList, countLinksList]
    · intro n ns ihn ihns
      simp [descendantsList, countLinksList, List.filter_append, ihn, ihns]
  · refine forest_ind (P := fun n => ((descendants n).filter isLink).length = countLinks n)
      ?_ ?_ ?_
    · intro v cs ih
      cases v <;> simp [descendants, countLinks, isLink, Node.value, ih, Nat.add_comm]
    · simp [descendantsList, countLinksList]
    · intro n ns ihn ihns
      simp [descendantsList, countLinksList, List.filter_append, ihn, ihns]

/-- `descendants` visits the tree exactly in the spec's pre-order. -/
theorem descendants_eq_preorder :
    (∀ n : Node, descendants n = preorder n) ∧
    (∀ l : List Node, descendantsList l = preorderForest l) := by
  constructor
  · refine node_ind (Q := fun l => descendantsList l = preorderForest l) ?_ ?_ ?_
    · intro v cs ih; simp [descendants, preorder, ih]
    · simp [descendantsList, preorderForest]
    · intro n ns ihn ihns; simp [descendantsList, preorderForest, ihn, ihns]
  · refine forest_ind (P := fun n => descendants n = preorder n) ?_ ?_ ?_
    · intro v cs ih; simp [descendants, preorder, ih]
    · simp [descendantsList, preorderForest]
    · intro n ns ihn ihns; simp [descendantsList, preorderForest, ihn, ihns]

/-- On any node list, filter-mapping `extract_link_from_node` is the same
as keeping the link nodes and mapping each to its record. -/
theorem filterMap_extract_link (l : List Node) (id : String) :
    l.filterMap (fun n => extract_link_from_node n id) =
      (l.filter isLink).map
        (fun n => { description := extract_text n, url := nodeUrl n, source_file := id }) := by
  induction l with
  | nil => simp
  | cons n ns ih =>
    obtain ⟨v, cs⟩ := n
    cases v <;>
      simpa [extract_link_from_node, isLink, nodeUrl, Node.value] using ih

/-- The record list of a tree has one record per link node:
its length is the structural link count. -/
theorem extract_links_tree_length (root : Node) (id : String) :
    (extract_links_tree root id).length = countLinks root := by
  rw [extract_links_tree, filterMap_extract_link, List.length_map]
  exact filter_isLink_length.1 root

/-- The descendants of any member of a traversal form a contiguous
(infix) block of that traversal, on trees and forests alike. -/
theorem descendants_infix_of_mem :
    (∀ n : Node, ∀ m, m ∈ descendants n → descendants m <:+: descendants n) ∧
    (∀ l : List Node, ∀ m, m ∈ descendantsList l → descendants m <:+: descendantsList l) := by
  have hmk : ∀ (v : NodeValue) (cs : List Node),
      (∀ m, m ∈ descendantsList cs → descendants m <:+: descendantsList cs) →
      ∀ m, m ∈ descendants (.mk v cs) → descendants m <:+: descendants (.mk v cs) := by
    intro v cs ih m hm
    rw [descendants] at hm ⊢
    rcases List.mem_cons.1 hm with h | h
    · subst h
      rw [descendants]
    · exact (ih m h).trans (List.infix_cons (List.infix_refl _))
  have hcons : ∀ (n : Node) (ns : List Node),
      (∀ m, m ∈ descendants n → descendants m <:+: descendants n) →
      (∀ m, m ∈ descendantsList ns → descendants m <:+: descendantsList ns) →
      ∀ m, m ∈ descendantsList (n :: ns) → descendants m <:+: descendantsList (n :: ns) := by
    intro n ns ihn ihns m hm
    rw [descendantsList] at hm ⊢
    rcases List.mem_append.1 hm with h | h
    · exact (ihn m h).trans ((List.prefix_append _ _).isInfix)
    · exact (ihns m h).trans ((List.suffix_append _ _).isInfix)
  constructor
  · exact node_ind hmk (by simp [descendantsList]) hcons
  · exact forest_ind hmk (by simp [descendantsList]) hcons

/-- `extract_text` computes the structural depth-first concatenation of
text-leaf contents, on trees and forests alike. -/
theorem extract_text_eq_concatTexts :
    (∀ n : Node, extract_text n = concatTexts n) ∧
    (∀ l : List Node, joinAll ((descendantsList l).filterMap textOf) = concatTextsList l) := by
  have hmk : ∀ (v : NodeValue) (cs : List Node),
      joinAll ((descendantsList cs).filterMap textOf) = concatTextsList cs →
      extract_text (.mk v cs) = concatTexts (.mk v cs) := by
    intro v cs ih
    cases v <;> simp [extract_text, descendants, textOf, joinAll, concatTexts, ih]
  have hcons : ∀ (n : Node) (ns : List Node),
      extract_text n = concatTexts n →
      joinAll ((descendantsList ns).filterMap textOf) = concatTextsList ns →
      joinAll ((descendantsList (n :: ns)).filterMap textOf) = concatTextsList (n :: ns) := by
    intro n ns ihn ihns
    have hn : joinAll ((descendants n).filterMap textOf) = concatTexts n := ihn
    rw [descendantsList, List.filterMap_append, joinAll_append, hn, ihns, concatTextsList]
  constructor
  · exact node_ind hmk (by simp [descendantsList, joinAll, concatTextsList]) hcons
  · exact forest_ind hmk (by simp [descendantsList, joinAll, concatTextsList]) hcons

/-- C1: for every markdown input text, every source identifier, and any
behaviour of the external parser, the number of records returned by
`extract_links` equals the number of link-tagged nodes in the document
tree produced by parsing the text. -/
theorem extract_links_length_eq_countLinks
    (parse : String → Node) (text id : String) :
    (extract_links parse text id).length = countLinks (parse text) := by
  rw [extract_links]
  exact extract_links_tree_length (parse text) id

/-- C3: for every markdown input, the record sequence returned by
`extract_links` is exactly the link nodes in the spec's pre-order (visit a
node, then its children left to right) of the parsed tree, each mapped to
its record — so record order is pre-order traversal order. -/
theorem extract_links_order_eq_preorder
    (parse : String → Node) (text id : String) :
    extract_links parse text id =
      ((preorder (parse text)).filter isLink).map
        (fun n => { description := extract_text n, url := nodeUrl n, source_file := id }) := by
  rw [extract_links, extract_links_tree, filterMap_extract_link,
    descendants_eq_preorder.1]

/-- C5: every record returned by `extract_links` has its `source_file`
field equal, character for character, to the source-identifier argument,
for every input text and identifier (the empty string included). -/
theorem source_file_eq_identifier
    (parse : String → Node) (text id : String) (r : Link)
    (hr : r ∈ extract_links parse text id) : r.source_file = id := by
  rw [extract_links, extract_links_tree] at hr
  obtain ⟨n, _, he⟩ := List.mem_filterMap.1 hr
  obtain ⟨v, cs⟩ := n
  cases v <;> simp [extract_link_from_node, Node.value] at he
  rw [← he]

/-- Witness for C5 at a concrete tree with one link. -/
theorem source_file_eq_identifier_witness :
    ({ description := "", url := "u", source_file := "file.md" } : Link).source_file
      = "file.md" :=
  source_file_eq_identifier (fun _ => Node.mk (.link "u") []) "x" "file.md" _ (by decide)

/-- C6: whenever `extract_link_from_node` produces a record for a node,
the node's tagged value is a link carrying exactly the record's `url` —
the url is copied with no transformation. -/
theorem url_copied_from_node_value (n : Node) (id : String) (r : Link)
    (h : extract_link_from_node n id = some r) :
    n.value = NodeValue.link r.url := by
  obtain ⟨v, cs⟩ := n
  cases v <;> simp [extract_link_from_node, Node.value] at h
  rw [← h, Node.value]

/-- Witness for C6 at a concrete link node. -/
theorem url_copied_from_node_value_witness :
    (Node.mk (.link "https://a/%20?q=1") [Node.mk (.text "t") []]).value
      = NodeValue.link "https://a/%20?q=1" :=
  url_copied_from_node_value _ "f"
    { description := "t", url := "https://a/%20?q=1", source_file := "f" } (by decide)

/-- C7: `extract_links` is a total function — for every parser behaviour,
input text and identifier it returns a (possibly empty) record list — and
when the external parser maps the empty string to a tree with no
link-tagged descendants (as comrak does), the empty input yields the empty
sequence. -/
theorem extract_links_total (parse : String → Node) (text id : String)
    (hempty : countLinks (parse "") = 0) :
    (∃ records : List Link, extract_links parse text id = records) ∧
    extract_links parse "" id = [] := by
  refine ⟨⟨_, rfl⟩, ?_⟩
  have h : (extract_links parse "" id).length = 0 := by
    rw [extract_links, extract_links_tree_length, hempty]
  exact List.length_eq_zero.1 h

/-- Witness for C7 with a parser sending everything to a bare document
node. -/
theorem extract_links_total_witness :
    (∃ records : List Link,
        extract_links (fun _ => Node.mk (.container 0) []) "" "f" = records) ∧
      extract_links (fun _ => Node.mk (.container 0) []) "" "f" = [] :=
  extract_links_total (fun _ => Node.mk (.container 0) []) "" "f" (by decide)

/-- C8: when the upstream parser recognises no link node in
`"[example] (https://www.example.com)"` (space before the parenthesis) or
in `"(https://www.example.com)"` (no bracketed label) — the behaviour the
repository's `pass_over_fake_link` test pins down — `extract_links`
returns the empty sequence for both inputs: zero records come from
constructs the parser does not tag as links, and the extractor does no
secondary pattern matching. -/
theorem fake_link_inputs_yield_empty (parse : String → Node) (id : String)
    (h1 : countLinks (parse "[example] (https://www.example.com)") = 0)
    (h2 : countLinks (parse "(https://www.example.com)") = 0) :
    extract_links parse "[example] (https://www.example.com)" id = [] ∧
    extract_links parse "(https://www.example.com)" id = [] := by
  constructor
  · have h : (extract_links parse "[example] (https://www.example.com)" id).length = 0 := by
      rw [extract_links, extract_links_tree_length, h1]
    exact List.length_eq_zero.1 h
  · have h : (extract_links parse "(https://www.example.com)" id).length = 0 := by
      rw [extract_links, extract_links_tree_length, h2]
    exact List.length_eq_zero.1 h

/-- Witness for C8 with a parser sending every input to a link-free
paragraph of plain text. -/
theorem fake_link_inputs_yield_empty_witness :
    extract_links (fun s => Node.mk (.container 1) [Node.mk (.text s) []])
        "[example] (https://www.example.com)" "f" = [] ∧
      extract_links (fun s => Node.mk (.container 1) [Node.mk (.text s) []])
        "(https://www.example.com)" "f" = [] :=
  fake_link_inputs_yield_empty (fun s => Node.mk (.container 1) [Node.mk (.text s) []])
    "f" (by decide) (by decide)

/-- A record's description is the accumulated text of the node it came
from. -/
theorem record_description (n : Node) (id : String) (r : Link)
    (h : extract_link_from_node n id = some r) : r.description = extract_text n := by
  obtain ⟨v, cs⟩ := n
  cases v <;> simp [extract_link_from_node, Node.value] at h
  rw [← h]

/-- C4: in every tree with a link node `n` whose subtree itself contains
another link node `m`, the extraction of the whole tree holds a record
for the outer link followed later by a separate record for the inner
link, and the outer record's description contains the inner record's
display text as plain characters. -/
theorem nested_link_two_records (root n m : Node) (id : String) (rOuter rInner : Link)
    (hroot : n ∈ descendants root)
    (houter : extract_link_from_node n id = some rOuter)
    (hinner : extract_link_from_node m id = some rInner)
    (hmem : m ∈ descendantsList n.children) :
    [rOuter, rInner].Sublist (extract_links_tree root id) ∧
    ∃ pre post, rOuter.description = pre ++ rInner.description ++ post := by
  have hdo : rOuter.description = extract_text n := record_description n id rOuter houter
  have hdi : rInner.description = extract_text m := record_description m id rInner hinner
  obtain ⟨v, cs⟩ := n
  rw [Node.children] at hmem
  constructor
  · obtain ⟨s, t, hst⟩ := descendants_infix_of_mem.1 root _ hroot
    obtain ⟨l₁, l₂, hl⟩ := List.append_of_mem hmem
    have hnm : [Node.mk v cs, m].Sublist (descendants root) := by
      rw [← hst, descendants, hl]
      refine List.Sublist.trans ?_ (List.sublist_append_left _ t)
      refine List.Sublist.trans ?_ (List.sublist_append_right s _)
      exact List.Sublist.cons₂ _
        (List.Sublist.trans (by simp) (List.sublist_append_right l₁ (m :: l₂)))
    have := List.Sublist.filterMap (fun k => extract_link_from_node k id) hnm
    rw [List.filterMap_cons, houter, List.filterMap_cons, hinner] at this
    exact this
  · obtain ⟨s, t, hst⟩ := descendants_infix_of_mem.2 cs m hmem
    refine ⟨joinAll (s.filterMap textOf), joinAll (t.filterMap textOf), ?_⟩
    have hvlink : ∃ u, v = NodeValue.link u := by
      cases v <;> simp [extract_link_from_node, Node.value] at houter
      exact ⟨_, rfl⟩
    obtain ⟨u, rfl⟩ := hvlink
    rw [hdo, hdi, extract_text, descendants]
    simp only [List.filterMap_cons, textOf]
    rw [← hst, List.filterMap_append, List.filterMap_append, joinAll_append, joinAll_append]
    rfl

/-- Witness for C4: a document holding a link that directly contains a
second link. -/
theorem nested_link_two_records_witness :
    [({ description := "hi", url := "u1", source_file := "f" } : Link),
        { description := "hi", url := "u2", source_file := "f" }].Sublist
      (extract_links_tree
        (Node.mk (.container 0)
          [Node.mk (.link "u1") [Node.mk (.link "u2") [Node.mk (.text "hi") []]]]) "f") ∧
    ∃ pre post,
      ({ description := "hi", url := "u1", source_file := "f" } : Link).description
        = pre ++ ({ description := "hi", url := "u2", source_file := "f" } : Link).description
            ++ post :=
  nested_link_two_records
    (Node.mk (.container 0)
      [Node.mk (.link "u1") [Node.mk (.link "u2") [Node.mk (.text "hi") []]]])
    (Node.mk (.link "u1") [Node.mk (.link "u2") [Node.mk (.text "hi") []]])
    (Node.mk (.link "u2") [Node.mk (.text "hi") []]) "f" _ _
    (by simp [descendants, descendantsList])
    (by decide) (by decide)
    (by simp [Node.children, descendantsList, descendants])

/-- C2 (amended): `extract_text` returns exactly the structural
depth-first concatenation of the literals of descendant text leaves, with
no separators; every non-text node — formatting wrappers and code spans
alike — contributes no characters of its own (a code span's literal sits
in the node's own value, which the accumulator never reads), and a
subtree with no text leaves therefore yields the empty string. -/
theorem extract_text_structural (root : Node) :
    extract_text root = concatTexts root :=
  extract_text_eq_concatTexts.1 root

/-- C2 counterexample: for a link whose content is the text `"see "`
followed by the code span `foo`, the accumulated description is `"see "`
— the code span's literal is not preserved in the result, contrary to the
claim. -/
theorem code_span_text_not_preserved :
    extract_text (Node.mk (.link "https://e.com")
        [Node.mk (.text "see ") [], Node.mk (.code "foo") []]) = "see " ∧
      ¬ ∃ pre post : String,
        extract_text (Node.mk (.link "https://e.com")
            [Node.mk (.text "see ") [], Node.mk (.code "foo") []])
          = pre ++ "foo" ++ post := by
  have hval : extract_text (Node.mk (.link "https://e.com")
      [Node.mk (.text "see ") [], Node.mk (.code "foo") []]) = "see " := by decide
  refine ⟨hval, ?_⟩
  rintro ⟨pre, post, h⟩
  rw [hval] at h
  have hf : 'f' ∈ "see ".data := by
    rw [h, String.data_append, String.data_append]
    refine List.mem_append.2 (Or.inl (List.mem_append.2 (Or.inr ?_)))
    decide
  exact absurd hf (by decide)

/-- src/main.rs `parse_from_filename`: load the file's contents (the
file-loading collaborator, abstracted as `load`), then run `extract_links`
on them with the file's display path as identifier; a load error
propagates as the error case. -/
def parse_from_filename {φ ε : Type} (load : φ → Except ε String)
    (parse : String → Node) (path_str : φ → String) (filename : φ) :
    Except ε (List Link) :=
  (load filename).map (fun contents => extract_links parse contents (path_str filename))

/-- src/main.rs `main`: over the input filenames in order, keep each
successful `parse_from_filename` result (dropping a failing file after its
diagnostic), and flatten the kept lists into the combined link list. -/
def main_link_list {φ ε : Type} (load : φ → Except ε String)
    (parse : String → Node) (path_str : φ → String) (filenames : List φ) :
    List Link :=
  (filenames.filterMap (fun f => (parse_from_filename load parse path_str f).toOption)).flatten

/-- C9: a file whose loading fails is skipped, and the combined output is
the concatenation, in input order, of the per-file results of the
remaining files — one failing file never aborts processing of the others. -/
theorem failing_file_skipped {φ ε : Type} (load : φ → Except ε String)
    (parse : String → Node) (path_str : φ → String)
    (fs₁ fs₂ : List φ) (f : φ) (e : ε)
    (hfail : load f = Except.error e) :
    main_link_list load parse path_str (fs₁ ++ f :: fs₂) =
      main_link_list load parse path_str fs₁ ++ main_link_list load parse path_str fs₂ := by
  simp [main_link_list, List.filterMap_append, List.filterMap_cons,
    parse_from_filename, hfail, Except.toOption, Except.map]

/-- Witness for C9: of three files, the middle one fails to load and the
other two still contribute, in order. -/
theorem failing_file_skipped_witness :
    main_link_list (fun n => if n = 0 then Except.error () else Except.ok "x")
        (fun s => Node.mk (.link s) []) (fun _ => "p") ([1] ++ 0 :: [2]) =
      main_link_list (fun n => if n = 0 then Except.error () else Except.ok "x")
          (fun s => Node.mk (.link s) []) (fun _ => "p") [1] ++
        main_link_list (fun n => if n = 0 then Except.error () else Except.ok "x")
          (fun s => Node.mk (.link s) []) (fun _ => "p") [2] :=
  failing_file_skipped (fun n => if n = 0 then Except.error () else Except.ok "x")
    (fun s => Node.mk (.link s) []) (fun _ => "p") [1] [2] 0 () (by rfl)

/-- src/main.rs `main`, delimited-text branch: the csv writer's field
delimiter is `args.separator.as_bytes()[0]` — byte 0 of the UTF-8
encoding of the separator string.  Rust slice indexing panics when the
index is out of bounds, so the panic on an empty separator is modelled as
`none`. -/
def delimiter_byte (separator : String) : Option Nat :=
  (separator.toUTF8.data.get? 0).map (fun b => b.toNat)

/-- C10: the delimiter depends only on the first byte of the configured
separator string (all further bytes are ignored), and for the empty
separator the byte-index access is out of bounds — a panic, modelled as
`none`, rather than a reported serialization error. -/
theorem delimiter_first_byte_only :
    (∀ s t : String, s.toUTF8.data.get? 0 = t.toUTF8.data.get? 0 →
        delimiter_byte s = delimiter_byte t) ∧
    delimiter_byte "" = none := by
  constructor
  · intro s t h
    rw [delimiter_byte, delimiter_byte, h]
  · rfl

/-- Witness for C10: two separators agreeing on their first byte only get
the same delimiter. -/
theorem delimiter_first_byte_only_witness :
    delimiter_byte ",;;" = delimiter_byte ",  " :=
  delimiter_first_byte_only.1 ",;;" ",  " (by decide)

end LinkExtractor
